import Mathlib

/-!
Shallow embedding of the spaced-repetition core of the generated
vocabulary-trainer application (model `UserProgress` in the generated
`models.py`, and the `practice` view in the generated `views.py`).

Timestamps are modelled as integers counting seconds; a Python
`timedelta(days = d)` added to a timestamp becomes `d * secondsPerDay`.
Counters and mastery levels are Python `int`s, modelled as `ℤ`.
`update_progress` returns `Option` because the Python interval lookup
`intervals[self.mastery_level]` can raise `IndexError` for inputs far
outside the documented range; Python's negative-index semantics are
modelled faithfully by `pyListGet`.
-/

namespace LangApp

/-- The scheduling fields of one `UserProgress` row (the spec's `ReviewState`). -/
structure UserProgress where
  mastery_level : ℤ
  correct_count : ℤ
  incorrect_count : ℤ
  last_reviewed : ℤ
  next_review : ℤ
deriving DecidableEq

/-- Number of seconds in one day, the unit conversion of `timedelta(days=1)`. -/
def secondsPerDay : ℤ := 86400

/-- The fixed interval table of `update_progress`: 1, 3, 7, 14, 30, 60 days. -/
def intervals : List ℤ := [1, 3, 7, 14, 30, 60]

/-- Python list indexing `xs[i]`: nonnegative indices from the front,
negative indices from the back, `none` (IndexError) out of bounds. -/
def pyListGet (xs : List ℤ) (i : ℤ) : Option ℤ :=
  if 0 ≤ i ∧ i < xs.length then some (xs.getD i.toNat 0)
  else if -(xs.length : ℤ) ≤ i ∧ i < 0 then some (xs.getD (i + xs.length).toNat 0)
  else none

/-- Embedding of `UserProgress.update_progress(self, is_correct)`: on a correct
answer increment `correct_count`, raise the mastery level (capped at 5) and look
the review interval up in `intervals` at the new level; on an incorrect answer
increment `incorrect_count`, lower the level (floored at 0) and review again in
one day.  Both `timezone.now()` calls are modelled by the single argument `now`. -/
def update_progress (s : UserProgress) (is_correct : Bool) (now : ℤ) :
    Option UserProgress :=
  if is_correct then
    match pyListGet intervals (min 5 (s.mastery_level + 1)) with
    | some days =>
        some { mastery_level := min 5 (s.mastery_level + 1)
               correct_count := s.correct_count + 1
               incorrect_count := s.incorrect_count
               last_reviewed := now
               next_review := now + days * secondsPerDay }
    | none => none
  else
    some { mastery_level := max 0 (s.mastery_level - 1)
           correct_count := s.correct_count
           incorrect_count := s.incorrect_count + 1
           last_reviewed := now
           next_review := now + 1 * secondsPerDay }

/-- The update algorithm as the spec words it: one counter incremented, the
level clamped, the interval read off the table at the new level on the correct
branch and fixed at one day on the incorrect branch, `nextReviewAt` set to
`now` plus the interval. -/
def spec_update (s : UserProgress) (isCorrect : Bool) (now : ℤ) : UserProgress :=
  if isCorrect then
    let level := min 5 (s.mastery_level + 1)
    { mastery_level := level
      correct_count := s.correct_count + 1
      incorrect_count := s.incorrect_count
      last_reviewed := now
      next_review := now + (intervals.getD level.toNat 0) * secondsPerDay }
  else
    { mastery_level := max 0 (s.mastery_level - 1)
      correct_count := s.correct_count
      incorrect_count := s.incorrect_count + 1
      last_reviewed := now
      next_review := now + 1 * secondsPerDay }

/-- A fresh `UserProgress` row: mastery 0, counts 0, both timestamps `now`
(the model's field defaults). -/
def fresh_progress (now : ℤ) : UserProgress :=
  { mastery_level := 0, correct_count := 0, incorrect_count := 0
    last_reviewed := now, next_review := now }

/-- Folding a sequence of answers through `update_progress`, propagating a
potential IndexError. -/
def runUpdates : UserProgress → List (Bool × ℤ) → Option UserProgress
  | s, [] => some s
  | s, (b, t) :: rest =>
    match update_progress s b t with
    | some s' => runUpdates s' rest
    | none => none

theorem update_progress_correct_eq (s : UserProgress) (now : ℤ)
    (h0 : 0 ≤ s.mastery_level) (h5 : s.mastery_level ≤ 5) :
    update_progress s true now =
      some { mastery_level := min 5 (s.mastery_level + 1)
             correct_count := s.correct_count + 1
             incorrect_count := s.incorrect_count
             last_reviewed := now
             next_review := now +
               (intervals.getD (min 5 (s.mastery_level + 1)).toNat 0) * secondsPerDay } := by
  have hlook : pyListGet intervals (min 5 (s.mastery_level + 1)) =
      some (intervals.getD (min 5 (s.mastery_level + 1)).toNat 0) := by
    have hcond : 0 ≤ min 5 (s.mastery_level + 1) ∧
        min 5 (s.mastery_level + 1) < (intervals.length : ℤ) := by
      simp only [intervals, List.length]
      omega
    simp [pyListGet, hcond]
  simp [update_progress, hlook]

theorem update_progress_incorrect_eq (s : UserProgress) (now : ℤ) :
    update_progress s false now =
      some { mastery_level := max 0 (s.mastery_level - 1)
             correct_count := s.correct_count
             incorrect_count := s.incorrect_count + 1
             last_reviewed := now
             next_review := now + 1 * secondsPerDay } := by
  simp [update_progress]

theorem intervals_getD_bounds (l : ℤ) (h1 : 1 ≤ l) (h5 : l ≤ 5) :
    3 ≤ intervals.getD l.toNat 0 ∧ intervals.getD l.toNat 0 ≤ 60 := by
  interval_cases l <;> simp [intervals]

/-- C1: for a state whose mastery level lies in `[0,5]`, `update_progress`
computes exactly the algorithm the spec describes: on a correct answer the
correct counter is incremented, the level becomes `min 5 (level + 1)` and the
interval is the table entry at the new level (so level 0 goes to 1 with a 3-day
interval and level 5 stays at 5 with a 60-day interval); on an incorrect answer
the incorrect counter is incremented, the level becomes `max 0 (level - 1)` and
the interval is one day; `next_review` is `now` plus the interval. -/
theorem c1_update_follows_spec (s : UserProgress) (b : Bool) (now : ℤ)
    (h0 : 0 ≤ s.mastery_level) (h5 : s.mastery_level ≤ 5) :
    update_progress s b now = some (spec_update s b now) := by
  cases b with
  | true =>
    rw [update_progress_correct_eq s now h0 h5]
    simp [spec_update]
  | false =>
    rw [update_progress_incorrect_eq s now]
    simp [spec_update]

/-- C1 witness: a level-0 state answered correctly moves to level 1 and is due
again three days later. -/
theorem c1_update_follows_spec_witness :
    (0 : ℤ) ≤ 0 ∧ (0 : ℤ) ≤ 5 ∧
      update_progress (fresh_progress 0) true 0 = some (spec_update (fresh_progress 0) true 0) :=
  ⟨le_refl 0, by norm_num,
    c1_update_follows_spec (fresh_progress 0) true 0 (by decide) (by decide)⟩

/-- C2: starting from a mastery level in `[0,5]`, the level after any update is
again in `[0,5]`. -/
theorem c2_mastery_level_invariant (s : UserProgress) (b : Bool) (now : ℤ)
    (s' : UserProgress)
    (h0 : 0 ≤ s.mastery_level) (h5 : s.mastery_level ≤ 5)
    (h : update_progress s b now = some s') :
    0 ≤ s'.mastery_level ∧ s'.mastery_level ≤ 5 := by
  cases b with
  | true =>
    rw [update_progress_correct_eq s now h0 h5] at h
    obtain rfl := Option.some_injective _ h.symm
    refine ⟨?_, ?_⟩
    · show (0 : ℤ) ≤ min 5 (s.mastery_level + 1)
      omega
    · show min 5 (s.mastery_level + 1) ≤ 5
      omega
  | false =>
    rw [update_progress_incorrect_eq s now] at h
    obtain rfl := Option.some_injective _ h.symm
    refine ⟨?_, ?_⟩
    · show (0 : ℤ) ≤ max 0 (s.mastery_level - 1)
      omega
    · show max 0 (s.mastery_level - 1) ≤ 5
      omega

/-- C2 witness: updating a fresh state with a correct answer keeps the level in
range. -/
theorem c2_mastery_level_invariant_witness :
    0 ≤ (UserProgress.mk 1 1 0 0 259200).mastery_level ∧
      (UserProgress.mk 1 1 0 0 259200).mastery_level ≤ 5 :=
  c2_mastery_level_invariant (fresh_progress 0) true 0
    (UserProgress.mk 1 1 0 0 259200) (by decide) (by decide) (by decide)

/-- C5: from a mastery level in `[0,5]`, every update schedules the next review
strictly after the review just recorded, because the chosen interval is at
least one day. -/
theorem c5_next_review_after_last (s : UserProgress) (b : Bool) (now : ℤ)
    (s' : UserProgress)
    (h0 : 0 ≤ s.mastery_level) (h5 : s.mastery_level ≤ 5)
    (h : update_progress s b now = some s') :
    s'.last_reviewed < s'.next_review := by
  cases b with
  | true =>
    rw [update_progress_correct_eq s now h0 h5] at h
    obtain rfl := Option.some_injective _ h.symm
    have hb := intervals_getD_bounds (min 5 (s.mastery_level + 1)) (by omega) (by omega)
    simp only [secondsPerDay]
    nlinarith [hb.1]
  | false =>
    rw [update_progress_incorrect_eq s now] at h
    obtain rfl := Option.some_injective _ h.symm
    simp [secondsPerDay]

/-- C5 witness: at the concrete fresh state the next review is strictly later
than the recorded review time. -/
theorem c5_next_review_after_last_witness :
    (UserProgress.mk 1 1 0 0 259200).last_reviewed <
      (UserProgress.mk 1 1 0 0 259200).next_review :=
  c5_next_review_after_last (fresh_progress 0) true 0
    (UserProgress.mk 1 1 0 0 259200) (by decide) (by decide) (by decide)

/-- C6: with the level in `[0,5]`, a correct answer never lowers the mastery
level and an incorrect answer never raises it. -/
theorem c6_mastery_monotone (s : UserProgress) (now : ℤ)
    (s₁ s₂ : UserProgress)
    (h0 : 0 ≤ s.mastery_level) (h5 : s.mastery_level ≤ 5)
    (hup : update_progress s true now = some s₁)
    (hdown : update_progress s false now = some s₂) :
    s.mastery_level ≤ s₁.mastery_level ∧ s₂.mastery_level ≤ s.mastery_level := by
  rw [update_progress_correct_eq s now h0 h5] at hup
  rw [update_progress_incorrect_eq s now] at hdown
  obtain rfl := Option.some_injective _ hup.symm
  obtain rfl := Option.some_injective _ hdown.symm
  constructor
  · show s.mastery_level ≤ min 5 (s.mastery_level + 1)
    omega
  · show max 0 (s.mastery_level - 1) ≤ s.mastery_level
    omega

theorem update_true_fields (s : UserProgress) (now : ℤ) (s' : UserProgress)
    (h : update_progress s true now = some s') :
    s'.mastery_level = min 5 (s.mastery_level + 1) ∧
      s'.correct_count = s.correct_count + 1 ∧
      s'.incorrect_count = s.incorrect_count ∧
      s'.last_reviewed = now := by
  rcases hl : pyListGet intervals (min 5 (s.mastery_level + 1)) with _ | days
  · simp only [update_progress, if_true, hl] at h
    exact Option.noConfusion h
  · simp only [update_progress, if_true, hl, Option.some.injEq] at h
    subst h
    simp

theorem mastery_range_step (s : UserProgress) (b : Bool) (now : ℤ)
    (s' : UserProgress)
    (h0 : 0 ≤ s.mastery_level) (h5 : s.mastery_level ≤ 5)
    (h : update_progress s b now = some s') :
    0 ≤ s'.mastery_level ∧ s'.mastery_level ≤ 5 := by
  cases b with
  | true =>
    obtain ⟨hm, -, -, -⟩ := update_true_fields s now s' h
    omega
  | false =>
    rw [update_progress_incorrect_eq s now] at h
    obtain rfl := Option.some_injective _ h.symm
    constructor
    · show (0 : ℤ) ≤ max 0 (s.mastery_level - 1)
      omega
    · show max 0 (s.mastery_level - 1) ≤ 5
      omega

/-- C6 witness: monotonicity at the concrete fresh state. -/
theorem c6_mastery_monotone_witness :
    (fresh_progress 0).mastery_level ≤ (UserProgress.mk 1 1 0 0 259200).mastery_level ∧
      (UserProgress.mk 0 0 1 0 86400).mastery_level ≤ (fresh_progress 0).mastery_level :=
  c6_mastery_monotone (fresh_progress 0) 0
    (UserProgress.mk 1 1 0 0 259200) (UserProgress.mk 0 0 1 0 86400)
    (by decide) (by decide) (by decide) (by decide)

/-- C7: updating twice with a correct answer is never the same as updating
once — the correct counter grows on every application, so the second result
differs from the first even when the level is already capped at 5. -/
theorem c7_update_not_idempotent (s : UserProgress) (now : ℤ)
    (s₁ s₂ : UserProgress)
    (_h0 : 0 ≤ s.mastery_level) (_h5 : s.mastery_level ≤ 5)
    (h1 : update_progress s true now = some s₁)
    (h2 : update_progress s₁ true now = some s₂) :
    s₂ ≠ s₁ := by
  obtain ⟨-, hc1, -, -⟩ := update_true_fields s now s₁ h1
  obtain ⟨-, hc2, -, -⟩ := update_true_fields s₁ now s₂ h2
  intro heq
  rw [heq] at hc2
  omega

/-- C7 witness: at mastery level 5 the second correct update still differs
from the first. -/
theorem c7_update_not_idempotent_witness :
    UserProgress.mk 5 2 0 0 5184000 ≠ UserProgress.mk 5 1 0 0 5184000 :=
  c7_update_not_idempotent (UserProgress.mk 5 0 0 0 0) 0
    (UserProgress.mk 5 1 0 0 5184000) (UserProgress.mk 5 2 0 0 5184000)
    (by decide) (by decide) (by decide) (by decide)

/-- C10: with the level in `[0,5]`, a correct answer always schedules the next
review at least three days out, because the new level is at least 1 and the
table entries from index 1 on are at least 3; a one-day interval can only come
from the incorrect branch. -/
theorem c10_correct_interval_at_least_three_days (s : UserProgress) (now : ℤ)
    (s' : UserProgress)
    (h0 : 0 ≤ s.mastery_level) (h5 : s.mastery_level ≤ 5)
    (h : update_progress s true now = some s') :
    now + 3 * secondsPerDay ≤ s'.next_review := by
  rw [update_progress_correct_eq s now h0 h5] at h
  obtain rfl := Option.some_injective _ h.symm
  have hb := intervals_getD_bounds (min 5 (s.mastery_level + 1)) (by omega) (by omega)
  have hmul : 3 * secondsPerDay ≤
      intervals.getD (min 5 (s.mastery_level + 1)).toNat 0 * secondsPerDay :=
    mul_le_mul_of_nonneg_right hb.1 (by norm_num [secondsPerDay])
  simp only [secondsPerDay] at hmul ⊢
  omega

/-- C10 witness: the fresh state answered correctly is due exactly three days
later. -/
theorem c10_correct_interval_at_least_three_days_witness :
    (0 : ℤ) + 3 * secondsPerDay ≤ (UserProgress.mk 1 1 0 0 259200).next_review :=
  c10_correct_interval_at_least_three_days (fresh_progress 0) 0
    (UserProgress.mk 1 1 0 0 259200) (by decide) (by decide) (by decide)

/-- C3 counterexample: the operation does not clamp into `[0,5]` for arbitrary
inputs.  Starting from mastery level `-3`, a correct answer produces mastery
level `-2`, which is outside `[0,5]` (the correct branch only clamps from
above, the incorrect branch only from below). -/
theorem c3_counterexample :
    (update_progress (UserProgress.mk (-3) 0 0 0 0) true 0).map
        UserProgress.mastery_level = some (-2) ∧
      ¬ (0 ≤ (-2 : ℤ) ∧ (-2 : ℤ) ≤ 5) := by
  decide

/-- C3 amended: for arbitrary inputs each branch clamps in one direction only —
after a correct answer the level is at most 5, after an incorrect answer it is
at least 0; the two-sided guarantee needs the in-range precondition of C2. -/
theorem c3_one_sided_clamp (s : UserProgress) (b : Bool) (now : ℤ)
    (s' : UserProgress)
    (h : update_progress s b now = some s') :
    (b = true → s'.mastery_level ≤ 5) ∧ (b = false → 0 ≤ s'.mastery_level) := by
  cases b with
  | true =>
    obtain ⟨hm, -, -, -⟩ := update_true_fields s now s' h
    exact ⟨fun _ => by omega, fun hb => absurd hb (by simp)⟩
  | false =>
    rw [update_progress_incorrect_eq s now] at h
    obtain rfl := Option.some_injective _ h.symm
    exact ⟨fun hb => absurd hb (by simp), fun _ => by simp⟩

/-- C3 amended witness: the one-sided clamp evaluated at the counterexample
state, whose correct update lands at level `-2 ≤ 5`. -/
theorem c3_one_sided_clamp_witness :
    (true = true → (UserProgress.mk (-2) 1 0 0 2592000).mastery_level ≤ 5) ∧
      (true = false → 0 ≤ (UserProgress.mk (-2) 1 0 0 2592000).mastery_level) :=
  c3_one_sided_clamp (UserProgress.mk (-3) 0 0 0 0) true 0
    (UserProgress.mk (-2) 1 0 0 2592000) (by decide)

theorem counters_step (s : UserProgress) (b : Bool) (now : ℤ)
    (s' : UserProgress) (h : update_progress s b now = some s') :
    (b = true → s'.correct_count = s.correct_count + 1 ∧
      s'.incorrect_count = s.incorrect_count) ∧
    (b = false → s'.incorrect_count = s.incorrect_count + 1 ∧
      s'.correct_count = s.correct_count) := by
  cases b with
  | true =>
    obtain ⟨-, hc, hi, -⟩ := update_true_fields s now s' h
    exact ⟨fun _ => ⟨hc, hi⟩, fun hb => absurd hb (by simp)⟩
  | false =>
    rw [update_progress_incorrect_eq s now] at h
    obtain rfl := Option.some_injective _ h.symm
    exact ⟨fun hb => absurd hb (by simp), fun _ => ⟨by simp, by simp⟩⟩

theorem runUpdates_counts_nonneg (outs : List (Bool × ℤ)) (s : UserProgress)
    (hc : 0 ≤ s.correct_count) (hi : 0 ≤ s.incorrect_count)
    (r : UserProgress) (hrun : runUpdates s outs = some r) :
    0 ≤ r.correct_count ∧ 0 ≤ r.incorrect_count := by
  induction outs generalizing s with
  | nil =>
    simp only [runUpdates, Option.some.injEq] at hrun
    subst hrun
    exact ⟨hc, hi⟩
  | cons p rest ih =>
    obtain ⟨b, t⟩ := p
    rcases hu : update_progress s b t with _ | s₁
    · simp only [runUpdates, hu] at hrun
      exact Option.noConfusion hrun
    · simp only [runUpdates, hu] at hrun
      have hstep := counters_step s b t s₁ hu
      cases b with
      | true =>
        obtain ⟨hc1, hi1⟩ := hstep.1 rfl
        exact ih s₁ (by omega) (by omega) hrun
      | false =>
        obtain ⟨hi1, hc1⟩ := hstep.2 rfl
        exact ih s₁ (by omega) (by omega) hrun

/-- C9: every update increments exactly one counter by one and leaves the
other unchanged, both counters never decrease, and any run of updates from a
fresh state keeps both counters nonnegative. -/
theorem c9_counter_frame (s : UserProgress) (b : Bool) (now : ℤ)
    (s' : UserProgress) (t0 : ℤ) (outs : List (Bool × ℤ)) (r : UserProgress)
    (h : update_progress s b now = some s')
    (hrun : runUpdates (fresh_progress t0) outs = some r) :
    (b = true → s'.correct_count = s.correct_count + 1 ∧
      s'.incorrect_count = s.incorrect_count) ∧
    (b = false → s'.incorrect_count = s.incorrect_count + 1 ∧
      s'.correct_count = s.correct_count) ∧
    s.correct_count ≤ s'.correct_count ∧
    s.incorrect_count ≤ s'.incorrect_count ∧
    0 ≤ r.correct_count ∧ 0 ≤ r.incorrect_count := by
  have hstep := counters_step s b now s' h
  have hrun' := runUpdates_counts_nonneg outs (fresh_progress t0)
    (by simp [fresh_progress]) (by simp [fresh_progress]) r hrun
  refine ⟨hstep.1, hstep.2, ?_, ?_, hrun'.1, hrun'.2⟩
  · cases b with
    | true => have := (hstep.1 rfl).1; omega
    | false => have := (hstep.2 rfl).2; omega
  · cases b with
    | true => have := (hstep.1 rfl).2; omega
    | false => have := (hstep.2 rfl).1; omega

/-- C9 witness: the frame condition and nonnegativity evaluated on the run
consisting of one correct then one incorrect answer from a fresh state. -/
theorem c9_counter_frame_witness :
    (true = true → (UserProgress.mk 1 1 0 0 259200).correct_count =
        (fresh_progress 0).correct_count + 1 ∧
      (UserProgress.mk 1 1 0 0 259200).incorrect_count =
        (fresh_progress 0).incorrect_count) ∧
    (true = false → (UserProgress.mk 1 1 0 0 259200).incorrect_count =
        (fresh_progress 0).incorrect_count + 1 ∧
      (UserProgress.mk 1 1 0 0 259200).correct_count =
        (fresh_progress 0).correct_count) ∧
    (fresh_progress 0).correct_count ≤ (UserProgress.mk 1 1 0 0 259200).correct_count ∧
    (fresh_progress 0).incorrect_count ≤ (UserProgress.mk 1 1 0 0 259200).incorrect_count ∧
    0 ≤ (UserProgress.mk 0 1 1 5 86405).correct_count ∧
    0 ≤ (UserProgress.mk 0 1 1 5 86405).incorrect_count :=
  c9_counter_frame (fresh_progress 0) true 0 (UserProgress.mk 1 1 0 0 259200)
    0 [(true, 0), (false, 5)] (UserProgress.mk 0 1 1 5 86405)
    (by decide) (by decide)

/-- One row of the `Word` table, reduced to the primary key, the only field
the practice selection reads. -/
structure Word where
  id : ℕ
deriving DecidableEq

/-- One `UserProgress` row as the `practice` view sees it: owner, word and the
due timestamp. -/
structure ProgressRow where
  user_id : ℕ
  word_id : ℕ
  next_review : ℤ
deriving DecidableEq

/-- The `due_words` queryset of the `practice` view: the user's rows with
`next_review <= now`, in the model's default ordering by `next_review`
ascending, limited to 10. -/
def due_words (uid : ℕ) (rows : List ProgressRow) (now : ℤ) : List ProgressRow :=
  ((rows.filter fun r => decide (r.user_id = uid ∧ r.next_review ≤ now)).mergeSort
      fun x y => decide (x.next_review ≤ y.next_review)).take 10

/-- The `learned_word_ids` values list: ids of words the user has any row for. -/
def learned_word_ids (uid : ℕ) (rows : List ProgressRow) : List ℕ :=
  (rows.filter fun r => decide (r.user_id = uid)).map fun r => r.word_id

/-- The `new_words` queryset: words without any row for the user, limited to
`k` (the view passes `10 - len(due_words)`). -/
def new_words (uid : ℕ) (rows : List ProgressRow) (words : List Word) (k : ℕ) :
    List Word :=
  (words.filter fun w => decide (w.id ∉ learned_word_ids uid rows)).take k

/-- Embedding of the selection performed by the `practice` view: the due rows
followed by new words filling the batch up to 10. -/
def practice (uid : ℕ) (rows : List ProgressRow) (words : List Word) (now : ℤ) :
    List (ProgressRow ⊕ Word) :=
  let due := due_words uid rows now
  due.map Sum.inl ++ (new_words uid rows words (10 - due.length)).map Sum.inr

/-- The batch size the spec observes. -/
def sessionK : ℕ := 10

/-- The selection policy as the spec words it: candidate set A is the learner's
due rows, earliest first, capped at `sessionK`; candidate set B fills the
remaining `sessionK - |A|` slots with never-reviewed words and is only added
when `|A| < sessionK`; the session is `A ++ B`. -/
def spec_practice (uid : ℕ) (rows : List ProgressRow) (words : List Word)
    (now : ℤ) : List (ProgressRow ⊕ Word) :=
  let a := ((rows.filter fun r => decide (r.user_id = uid ∧ r.next_review ≤ now)).mergeSort
      fun x y => decide (x.next_review ≤ y.next_review)).take sessionK
  let b := if a.length < sessionK then
      (words.filter fun w => decide (w.id ∉ learned_word_ids uid rows)).take
        (sessionK - a.length)
    else []
  a.map Sum.inl ++ b.map Sum.inr

theorem due_words_length_le (uid : ℕ) (rows : List ProgressRow) (now : ℤ) :
    (due_words uid rows now).length ≤ 10 := by
  simp [due_words]

theorem mem_due_words (uid : ℕ) (rows : List ProgressRow) (now : ℤ)
    (r : ProgressRow) (h : r ∈ due_words uid rows now) :
    r.user_id = uid ∧ r.next_review ≤ now := by
  have h1 := List.mem_of_mem_take h
  rw [List.mem_mergeSort, List.mem_filter] at h1
  exact of_decide_eq_true h1.2

theorem mem_new_words (uid : ℕ) (rows : List ProgressRow) (words : List Word)
    (k : ℕ) (w : Word) (h : w ∈ new_words uid rows words k) :
    w.id ∉ learned_word_ids uid rows := by
  have h1 := List.mem_of_mem_take h
  rw [List.mem_filter] at h1
  exact of_decide_eq_true h1.2

/-- C8: the practice selection equals the spec's policy `A ++ B` (with the
remainder-fill expressed by an explicit guard on `|A| < K`), it never exceeds
10 entries, the due part is sorted by due date ascending, every selected row is
a due row of the learner, and every selected word has no review row for the
learner. -/
theorem c8_practice_selection (uid : ℕ) (rows : List ProgressRow)
    (words : List Word) (now : ℤ) :
    practice uid rows words now = spec_practice uid rows words now ∧
    (practice uid rows words now).length ≤ 10 ∧
    (due_words uid rows now).Pairwise (fun x y => x.next_review ≤ y.next_review) ∧
    (∀ r : ProgressRow, Sum.inl r ∈ practice uid rows words now →
      r.user_id = uid ∧ r.next_review ≤ now) ∧
    (∀ w : Word, Sum.inr w ∈ practice uid rows words now →
      w.id ∉ learned_word_ids uid rows) := by
  refine ⟨?_, ?_, ?_, ?_, ?_⟩
  · simp only [practice, spec_practice]
    have ha : ((rows.filter fun r => decide (r.user_id = uid ∧ r.next_review ≤ now)).mergeSort
        fun x y => decide (x.next_review ≤ y.next_review)).take sessionK =
          due_words uid rows now := rfl
    have hb : ∀ k : ℕ,
        (words.filter fun w => decide (w.id ∉ learned_word_ids uid rows)).take k =
          new_words uid rows words k := fun _ => rfl
    rw [ha, hb]
    have hk : sessionK = 10 := rfl
    rw [hk]
    by_cases hlt : (due_words uid rows now).length < 10
    · rw [if_pos hlt]
    · have hle := due_words_length_le uid rows now
      have h10 : (due_words uid rows now).length = 10 := by omega
      rw [if_neg hlt, h10]
      simp [new_words]
  · have ha := due_words_length_le uid rows now
    have hb : (new_words uid rows words (10 - (due_words uid rows now).length)).length ≤
        10 - (due_words uid rows now).length := by
      simp [new_words]
    simp only [practice, List.length_append, List.length_map]
    omega
  · have hs := @List.sorted_mergeSort ProgressRow
      (fun x y : ProgressRow => decide (x.next_review ≤ y.next_review))
      (fun a b c hab hbc => by
        simp only [decide_eq_true_eq] at hab hbc ⊢
        exact le_trans hab hbc)
      (fun a b => by
        simp only [Bool.or_eq_true, decide_eq_true_eq]
        exact le_total a.next_review b.next_review)
      (rows.filter fun r => decide (r.user_id = uid ∧ r.next_review ≤ now))
    have hp : (due_words uid rows now).Pairwise
        (fun x y : ProgressRow => decide (x.next_review ≤ y.next_review) = true) :=
      List.Pairwise.sublist (List.take_sublist _ _) hs
    exact hp.imp fun h => of_decide_eq_true h
  · intro r hr
    simp only [practice, List.mem_append, List.mem_map] at hr
    rcases hr with ⟨x, hx, hxr⟩ | ⟨x, _, hxr⟩
    · obtain rfl : x = r := Sum.inl_injective hxr
      exact mem_due_words uid rows now _ hx
    · exact absurd hxr (by simp)
  · intro w hw
    simp only [practice, List.mem_append, List.mem_map] at hw
    rcases hw with ⟨x, _, hxr⟩ | ⟨x, hx, hxr⟩
    · exact absurd hxr (by simp)
    · obtain rfl : x = w := Sum.inr_injective hxr
      exact mem_new_words uid rows words _ _ hx

/-- Round a rational to the nearest integer, ties to even, the IEEE-754
default rounding used by Python floats. -/
def rne (x : ℚ) : ℤ :=
  if x - ⌊x⌋ < 1 / 2 then ⌊x⌋
  else if 1 / 2 < x - ⌊x⌋ then ⌊x⌋ + 1
  else if ⌊x⌋ % 2 = 0 then ⌊x⌋ else ⌊x⌋ + 1

/-- The binary64 value nearest to a rational, as an exact rational: the
significand is rounded to 53 bits at the scale set by the leading binary
exponent.  Subnormal and overflowing magnitudes never arise at the values
this development touches. -/
def toDouble (q : ℚ) : ℚ :=
  if q = 0 then 0
  else
    (if 0 < q then 1 else -1) *
      (rne (|q| / 2 ^ (Int.log 2 |q| - 52)) : ℚ) * 2 ^ (Int.log 2 |q| - 52)

/-- Python `int()` applied to a float: truncation toward zero. -/
def pyInt (q : ℚ) : ℤ := if 0 ≤ q then ⌊q⌋ else -⌊-q⌋

/-- Embedding of the `success_rate` property: `int((correct_count / total) * 100)`
with the division and multiplication performed in binary64 and `int()`
truncating, or 0 when there are no reviews at all. -/
def success_rate (s : UserProgress) : ℤ :=
  if s.correct_count + s.incorrect_count = 0 then 0
  else pyInt (toDouble (toDouble ((s.correct_count : ℚ) /
    ((s.correct_count + s.incorrect_count : ℤ) : ℚ)) * 100))

theorem rne_sub_abs (x : ℚ) : |(rne x : ℚ) - x| ≤ 1 / 2 := by
  have h0 : (⌊x⌋ : ℚ) ≤ x := Int.floor_le x
  have h1 : x < ⌊x⌋ + 1 := Int.lt_floor_add_one x
  unfold rne
  split_ifs with ha hb hc
  all_goals rw [abs_le]; constructor <;> push_cast <;> linarith

theorem rne_eq_of_lt_half (x : ℚ) (m : ℤ) (h1 : (m : ℚ) ≤ x)
    (h2 : x < m + 1 / 2) : rne x = m := by
  have hf : ⌊x⌋ = m := Int.floor_eq_iff.mpr ⟨h1, by linarith⟩
  unfold rne
  rw [hf, if_pos (by linarith)]

theorem rne_eq_of_gt_half (x : ℚ) (m : ℤ) (h1 : (m : ℚ) + 1 / 2 < x)
    (h2 : x < m + 1) : rne x = m + 1 := by
  have hf : ⌊x⌋ = m := Int.floor_eq_iff.mpr ⟨by linarith, by linarith⟩
  unfold rne
  rw [hf, if_neg (by linarith), if_pos (by linarith)]

theorem int_log_eq (q : ℚ) (e : ℤ) (hq : 0 < q) (h1 : (2 : ℚ) ^ e ≤ q)
    (h2 : q < (2 : ℚ) ^ (e + 1)) : Int.log 2 q = e := by
  have hle : e ≤ Int.log 2 q := (Int.zpow_le_iff_le_log one_lt_two hq).mp (by exact_mod_cast h1)
  have hlt : Int.log 2 q < e + 1 := (Int.lt_zpow_iff_log_lt one_lt_two hq).mp (by exact_mod_cast h2)
  omega

theorem toDouble_zero : toDouble 0 = 0 := by
  simp [toDouble]

theorem toDouble_eq (q : ℚ) (e m : ℤ) (hq : 0 < q) (h1 : (2 : ℚ) ^ e ≤ q)
    (h2 : q < (2 : ℚ) ^ (e + 1)) (hm : rne (q / 2 ^ (e - 52)) = m) :
    toDouble q = (m : ℚ) * 2 ^ (e - 52) := by
  unfold toDouble
  rw [if_neg hq.ne', abs_of_pos hq, int_log_eq q e hq h1 h2, if_pos hq, hm]
  ring

theorem toDouble_pos_err (q : ℚ) (hq : 0 < q) :
    |toDouble q - q| ≤ q / 2 ^ 53 := by
  unfold toDouble
  rw [if_neg hq.ne', abs_of_pos hq, if_pos hq]
  set e := Int.log 2 q with he
  set g : ℚ := 2 ^ (e - 52) with hg
  have hgpos : 0 < g := zpow_pos (by norm_num) _
  have key : (1 : ℚ) * (rne (q / g) : ℚ) * g - q = ((rne (q / g) : ℚ) - q / g) * g := by
    field_simp
  rw [key, abs_mul, abs_of_pos hgpos]
  have h1 : |(rne (q / g) : ℚ) - q / g| ≤ 1 / 2 := rne_sub_abs _
  have h2e : (2 : ℚ) ^ e ≤ q := by
    have := Int.zpow_log_le_self (b := 2) one_lt_two hq
    exact_mod_cast this
  have hgle : g ≤ q / 2 ^ 52 := by
    rw [hg, zpow_sub₀ (two_ne_zero)]
    have h52 : (2 : ℚ) ^ (52 : ℤ) = 2 ^ (52 : ℕ) := by
      norm_cast
    rw [h52]
    exact div_le_div_of_nonneg_right h2e (by positivity)
  calc |(rne (q / g) : ℚ) - q / g| * g ≤ (1 / 2) * g :=
        mul_le_mul_of_nonneg_right h1 hgpos.le
    _ ≤ (1 / 2) * (q / 2 ^ 52) := by linarith
    _ = q / 2 ^ 53 := by ring

theorem success_rate_29_71 : success_rate (UserProgress.mk 0 29 71 0 0) = 28 := by
  have hA : toDouble (29 / 100 : ℚ) = (5224175567749775 : ℚ) * 2 ^ ((-2 : ℤ) - 52) :=
    toDouble_eq _ (-2) _ (by norm_num) (by norm_num) (by norm_num)
      (rne_eq_of_lt_half _ _ (by norm_num) (by norm_num))
  have hB : toDouble ((5224175567749775 : ℚ) * 2 ^ ((-2 : ℤ) - 52) * 100) =
      (8162774324609023 : ℚ) * 2 ^ ((4 : ℤ) - 52) :=
    toDouble_eq _ 4 _ (by norm_num) (by norm_num) (by norm_num)
      (rne_eq_of_lt_half _ _ (by norm_num) (by norm_num))
  show pyInt (toDouble (toDouble (((29 : ℤ) : ℚ) / (((29 + 71 : ℤ)) : ℚ)) * 100)) = 28
  rw [show (((29 : ℤ) : ℚ) / (((29 + 71 : ℤ)) : ℚ)) = (29 / 100 : ℚ) by norm_num, hA, hB]
  unfold pyInt
  rw [if_pos (by norm_num)]
  exact Int.floor_eq_iff.mpr ⟨by norm_num, by norm_num⟩

theorem success_rate_3_1 : success_rate (UserProgress.mk 0 3 1 0 0) = 75 := by
  have hA : toDouble (3 / 4 : ℚ) = (6755399441055744 : ℚ) * 2 ^ ((-1 : ℤ) - 52) :=
    toDouble_eq _ (-1) _ (by norm_num) (by norm_num) (by norm_num)
      (rne_eq_of_lt_half _ _ (by norm_num) (by norm_num))
  have hB : toDouble ((6755399441055744 : ℚ) * 2 ^ ((-1 : ℤ) - 52) * 100) =
      (5277655813324800 : ℚ) * 2 ^ ((6 : ℤ) - 52) :=
    toDouble_eq _ 6 _ (by norm_num) (by norm_num) (by norm_num)
      (rne_eq_of_lt_half _ _ (by norm_num) (by norm_num))
  show pyInt (toDouble (toDouble (((3 : ℤ) : ℚ) / (((3 + 1 : ℤ)) : ℚ)) * 100)) = 75
  rw [show (((3 : ℤ) : ℚ) / (((3 + 1 : ℤ)) : ℚ)) = (3 / 4 : ℚ) by norm_num, hA, hB]
  unfold pyInt
  rw [if_pos (by norm_num)]
  exact Int.floor_eq_iff.mpr ⟨by norm_num, by norm_num⟩

/-- C4 counterexample: at 29 correct and 71 incorrect answers the code returns
28, not `floor(100 * 29 / 100) = 29` — the double-precision product
`(29 / 100) * 100` falls just below 29 and `int()` truncates it down. -/
theorem c4_counterexample :
    success_rate (UserProgress.mk 0 29 71 0 0) = 28 ∧
      success_rate (UserProgress.mk 0 29 71 0 0) ≠
        ⌊(100 * ((UserProgress.mk 0 29 71 0 0).correct_count : ℚ)) /
          (((UserProgress.mk 0 29 71 0 0).correct_count : ℚ) +
            ((UserProgress.mk 0 29 71 0 0).incorrect_count : ℚ))⌋ := by
  have h28 := success_rate_29_71
  refine ⟨h28, ?_⟩
  rw [h28]
  intro hcontra
  have hfloor : ⌊(100 * ((29 : ℤ) : ℚ)) / (((29 : ℤ) : ℚ) + ((71 : ℤ) : ℚ))⌋ = 29 := by
    rw [show (100 * ((29 : ℤ) : ℚ)) / (((29 : ℤ) : ℚ) + ((71 : ℤ) : ℚ)) = (29 : ℚ) by norm_num]
    exact Int.floor_intCast 29
  rw [hfloor] at hcontra
  exact absurd hcontra (by norm_num)

/-- C4 amended: with no reviews the rate is 0; otherwise, for total counts up
to `2 ^ 40`, the rate equals `floor(100 * correct / total)` or falls exactly
one below it, the loss coming from binary64 rounding of `(correct / total) * 100`
before truncation. -/
theorem c4_success_rate_near_floor (s : UserProgress)
    (hc : 0 ≤ s.correct_count) (hi : 0 ≤ s.incorrect_count)
    (hbound : s.correct_count + s.incorrect_count ≤ 2 ^ 40) :
    (s.correct_count + s.incorrect_count = 0 → success_rate s = 0) ∧
    (0 < s.correct_count + s.incorrect_count →
      success_rate s =
          ⌊(100 * (s.correct_count : ℚ)) /
            ((s.correct_count : ℚ) + (s.incorrect_count : ℚ))⌋ ∨
        success_rate s =
          ⌊(100 * (s.correct_count : ℚ)) /
            ((s.correct_count : ℚ) + (s.incorrect_count : ℚ))⌋ - 1) := by
  obtain ⟨ml, c, i, lr, nr⟩ := s
  dsimp only at hc hi hbound ⊢
  constructor
  · intro h0
    unfold success_rate
    rw [if_pos h0]
  · intro ht
    have htne : c + i ≠ 0 := by omega
    have htQ : (0 : ℚ) < ((c + i : ℤ) : ℚ) := by exact_mod_cast ht
    unfold success_rate
    dsimp only
    rw [if_neg htne]
    rcases eq_or_lt_of_le hc with hc0 | hcpos
    · left
      rw [← hc0]
      simp [pyInt, toDouble_zero]
    · set q : ℚ := (c : ℚ) / ((c + i : ℤ) : ℚ) with hqdef
      have hq : 0 < q := div_pos (by exact_mod_cast hcpos) htQ
      have hq1 : q ≤ 1 := by
        rw [hqdef, div_le_one htQ]
        exact_mod_cast (by omega : c ≤ c + i)
      have he1 := toDouble_pos_err q hq
      have habs1 := abs_le.mp he1
      have hd1pos : 0 < toDouble q := by
        have hlt : q / 2 ^ 53 < q := div_lt_self hq (by norm_num)
        linarith [habs1.1]
      have hppos : 0 < toDouble q * 100 := by positivity
      have he2 := toDouble_pos_err (toDouble q * 100) hppos
      have habs2 := abs_le.mp he2
      have herr : |toDouble (toDouble q * 100) - 100 * q| ≤ 1 / 2 ^ 44 := by
        rw [abs_le]
        constructor <;> nlinarith [habs1.1, habs1.2, habs2.1, habs2.2, hq.le, hq1]
      have habsd := abs_le.mp herr
      have hfloor_eq : (100 * (c : ℚ)) / ((c : ℚ) + (i : ℚ)) = 100 * q := by
        rw [hqdef]
        push_cast
        ring
      rw [hfloor_eq]
      set N := ⌊(100 : ℚ) * q⌋ with hNdef
      have hNle : (N : ℚ) ≤ 100 * q := by
        rw [hNdef]
        exact Int.floor_le _
      have hNlt : 100 * q < (N : ℚ) + 1 := by
        rw [hNdef]
        exact Int.lt_floor_add_one _
      have harg : 100 * q = (100 * (c : ℚ)) / ((c + i : ℤ) : ℚ) := by
        rw [hqdef]
        ring
      have hmul : 100 * (c : ℚ) < ((N : ℚ) + 1) * ((c + i : ℤ) : ℚ) :=
        (div_lt_iff₀ htQ).mp (harg ▸ hNlt)
      have hZ : 100 * c + 1 ≤ (N + 1) * (c + i) := by
        have h2 : (100 * c : ℤ) < (N + 1) * (c + i) := by exact_mod_cast hmul
        omega
      have hgap : 100 * q + 1 / ((c + i : ℤ) : ℚ) ≤ (N : ℚ) + 1 := by
        have hQ1 : 100 * (c : ℚ) + 1 ≤ ((N : ℚ) + 1) * ((c + i : ℤ) : ℚ) := by
          exact_mod_cast hZ
        have hstep : (100 * (c : ℚ) + 1) / ((c + i : ℤ) : ℚ) ≤
            (((N : ℚ) + 1) * ((c + i : ℤ) : ℚ)) / ((c + i : ℤ) : ℚ) :=
          (div_le_div_iff_of_pos_right htQ).mpr hQ1
        rw [mul_div_assoc, div_self htQ.ne', mul_one] at hstep
        calc 100 * q + 1 / ((c + i : ℤ) : ℚ)
            = (100 * (c : ℚ) + 1) / ((c + i : ℤ) : ℚ) := by rw [hqdef]; ring
          _ ≤ (N : ℚ) + 1 := hstep
      have htgap : 1 / (2 ^ 40 : ℚ) ≤ 1 / ((c + i : ℤ) : ℚ) := by
        apply one_div_le_one_div_of_le htQ
        exact_mod_cast hbound
      have hq_lb : 1 / ((c + i : ℤ) : ℚ) ≤ q := by
        rw [hqdef]
        have hc1 : (1 : ℚ) ≤ (c : ℚ) := by exact_mod_cast (by omega : (1 : ℤ) ≤ c)
        exact (div_le_div_iff_of_pos_right htQ).mpr hc1
      have hd2pos : 0 ≤ toDouble (toDouble q * 100) := by
        linarith [habsd.1, htgap, hq_lb]
      have hsr : pyInt (toDouble (toDouble q * 100)) = ⌊toDouble (toDouble q * 100)⌋ := by
        unfold pyInt
        rw [if_pos hd2pos]
      rw [hsr]
      have hup : ⌊toDouble (toDouble q * 100)⌋ ≤ N := by
        have hlt2 : toDouble (toDouble q * 100) < ((N + 1 : ℤ) : ℚ) := by
          push_cast
          linarith [habsd.2, hgap, htgap]
        have := Int.floor_lt.mpr hlt2
        omega
      have hlo : N - 1 ≤ ⌊toDouble (toDouble q * 100)⌋ := by
        apply Int.le_floor.mpr
        push_cast
        linarith [habsd.1, hNle]
      omega

/-- C4 amended witness: at 3 correct and 1 incorrect answers the hypotheses
hold and the rate is the floor value or one below it (it is in fact 75). -/
theorem c4_success_rate_near_floor_witness :
    ((3 : ℤ) + 1 = 0 → success_rate (UserProgress.mk 0 3 1 0 0) = 0) ∧
    ((0 : ℤ) < 3 + 1 →
      success_rate (UserProgress.mk 0 3 1 0 0) =
          ⌊(100 * ((3 : ℤ) : ℚ)) / (((3 : ℤ) : ℚ) + ((1 : ℤ) : ℚ))⌋ ∨
        success_rate (UserProgress.mk 0 3 1 0 0) =
          ⌊(100 * ((3 : ℤ) : ℚ)) / (((3 : ℤ) : ℚ) + ((1 : ℤ) : ℚ))⌋ - 1) :=
  c4_success_rate_near_floor (UserProgress.mk 0 3 1 0 0)
    (by decide) (by decide) (by decide)

/-- C8 witness: the selection evaluated at a concrete learner with no rows and
no words is within the batch bound. -/
theorem c8_practice_selection_witness : (practice 1 [] [] 0).length ≤ 10 :=
  (c8_practice_selection 1 [] [] 0).2.1

end LangApp
